import Mathlib

/-!
Verification of the document extraction and composition pipeline of
`data_dictionary_index.py` (class `DataDictionaryIndex`).

The Python source is shallowly embedded below:
* the documentation composer `_build_hierarchical_documentation`,
* the per-element walk `_build_element_entry` (with units inheritance),
* the extractor `_get_document`,
* the batcher `_get_document_batch`,
* the index-identity resolver `_get_index_name` (with a faithful MD5).

Python dictionaries (insertion ordered) are modelled as association lists
`List (String × String)`; optional XML attributes as `Option String`
(`none` = attribute absent); Python truthiness of a string is the test
against `""`.
-/

set_option maxRecDepth 100000

namespace DDIndex

/-! ### Small helpers shared by the embedding -/

/-- Python `x.count("/")`: number of `/` characters in a string. -/
def slashCount (p : String) : Nat :=
  (p.data.filter (fun c => c = '/')).length

/-- The sort key relation used by `sorted(keys, key=lambda x: x.count("/"))`.
Python `sorted` is stable; `List.insertionSort` with this relation is the
corresponding stable ascending sort. -/
def depthLe (p q : String) : Prop := slashCount p ≤ slashCount q

instance : DecidableRel depthLe := fun p q => Nat.decLe _ _

instance : IsTotal String depthLe := ⟨fun a b => Nat.le_total _ _⟩

instance : IsTrans String depthLe := ⟨fun _ _ _ => Nat.le_trans⟩

/-- Python dict assignment `d[k] = v` on an insertion-ordered mapping
modelled as an association list: update in place if the key exists,
otherwise append. -/
def dictInsert (m : List (String × String)) (k v : String) :
    List (String × String) :=
  if m.any (fun kv => kv.1 == k) then
    m.map (fun kv => if kv.1 == k then (k, v) else kv)
  else m ++ [(k, v)]

/-- A string of `n` `#` characters. -/
def hashes (n : Nat) : String := String.mk (List.replicate n '#')

/-- A string of `n` space characters (`"  " * level` builds such strings). -/
def spaces (n : Nat) : String := String.mk (List.replicate n ' ')

/-! ### `_build_hierarchical_documentation` -/

/-- `sorted(documentation_parts.keys(), key=lambda x: x.count("/"))[-1]`:
the deepest path selected by the composer (last element of the stable
ascending sort of the keys by slash count). -/
def deepestPath (parts : List (String × String)) : Option String :=
  (List.insertionSort depthLe (parts.map Prod.fst)).getLast?

/-- `paths_by_depth[:-1]`: the keys the composer iterates for the
"Hierarchical Context" section, in the order the code iterates them. -/
def contextPaths (parts : List (String × String)) : List String :=
  (List.insertionSort depthLe (parts.map Prod.fst)).dropLast

/-- One iteration of the context loop of `_build_hierarchical_documentation`:
the block appended for `path_key` (`none` when the documentation is empty
and the iteration appends nothing). -/
def contextBlock (parts : List (String × String)) (pathKey : String) :
    Option String :=
  let doc := (List.lookup pathKey parts).getD ""
  if doc = "" then none
  else
    let depth := slashCount pathKey + 1
    if depth + 2 ≤ 6 then
      some (hashes (depth + 2) ++ " " ++ pathKey ++ "\n" ++ doc)
    else
      let indentLevel := depth + 2 - 6
      let indent := spaces (2 * indentLevel)
      some ("###### " ++ indent ++ "**" ++ pathKey ++ "**\n" ++ indent ++ doc)

/-- The `doc_sections` list built by `_build_hierarchical_documentation`
before the final `"\n\n".join`. -/
def docSections (parts : List (String × String)) : List String :=
  match deepestPath parts with
  | none => []
  | some dp =>
    let leafDoc := (List.lookup dp parts).getD ""
    (if leafDoc = "" then [] else ["**" ++ dp ++ "**\n" ++ leafDoc]) ++
    (if contextPaths parts = [] then []
     else "## Hierarchical Context" ::
       (contextPaths parts).filterMap (contextBlock parts))

/-- `_build_hierarchical_documentation(documentation_parts)`. -/
def buildHierarchicalDocumentation (parts : List (String × String)) : String :=
  String.intercalate "\n\n" (docSections parts)

/-! ### MD5 (the `hashlib.md5(...).hexdigest()` call of `_get_index_name`)

A byte-level implementation of RFC 1321 MD5 over `List Nat`
(each entry a byte), used exactly where the Python source calls
`hashlib.md5(ids_str.encode("utf-8")).hexdigest()`. -/

namespace MD5

def M32 : Nat := 4294967296

def rotl (x n : Nat) : Nat := ((x <<< n) % M32) ||| (x >>> (32 - n))

/-- Per-round left-rotation amounts. -/
def shifts : List Nat :=
  [7, 12, 17, 22, 7, 12, 17, 22, 7, 12, 17, 22, 7, 12, 17, 22,
   5, 9, 14, 20, 5, 9, 14, 20, 5, 9, 14, 20, 5, 9, 14, 20,
   4, 11, 16, 23, 4, 11, 16, 23, 4, 11, 16, 23, 4, 11, 16, 23,
   6, 10, 15, 21, 6, 10, 15, 21, 6, 10, 15, 21, 6, 10, 15, 21]

/-- Round constants `K[i] = floor(2^32 * |sin(i+1)|)`. -/
def K : List Nat :=
  [0xd76aa478, 0xe8c7b756, 0x242070db, 0xc1bdceee,
   0xf57c0faf, 0x4787c62a, 0xa8304613, 0xfd469501,
   0x698098d8, 0x8b44f7af, 0xffff5bb1, 0x895cd7be,
   0x6b901122, 0xfd987193, 0xa679438e, 0x49b40821,
   0xf61e2562, 0xc040b340, 0x265e5a51, 0xe9b6c7aa,
   0xd62f105d, 0x02441453, 0xd8a1e681, 0xe7d3fbc8,
   0x21e1cde6, 0xc33707d6, 0xf4d50d87, 0x455a14ed,
   0xa9e3e905, 0xfcefa3f8, 0x676f02d9, 0x8d2a4c8a,
   0xfffa3942, 0x8771f681, 0x6d9d6122, 0xfde5380c,
   0xa4beea44, 0x4bdecfa9, 0xf6bb4b60, 0xbebfbc70,
   0x289b7ec6, 0xeaa127fa, 0xd4ef3085, 0x04881d05,
   0xd9d4d039, 0xe6db99e5, 0x1fa27cf8, 0xc4ac5665,
   0xf4292244, 0x432aff97, 0xab9423a7, 0xfc93a039,
   0x655b59c3, 0x8f0ccc92, 0xffeff47d, 0x85845dd1,
   0x6fa87e4f, 0xfe2ce6e0, 0xa3014314, 0x4e0811a1,
   0xf7537e82, 0xbd3af235, 0x2ad7d2bb, 0xeb86d391]

/-- Little-endian byte decomposition, `w` bytes. -/
def toLE (w n : Nat) : List Nat :=
  (List.range w).map (fun i => (n >>> (8 * i)) % 256)

/-- RFC 1321 padding: `0x80`, zeros to 56 mod 64, then the 64-bit
little-endian bit length. -/
def padMessage (msg : List Nat) : List Nat :=
  let len := msg.length
  let padLen := (119 - len % 64) % 64
  msg ++ [0x80] ++ List.replicate padLen 0 ++ toLE 8 (len * 8)

/-- Split a byte list into 64-byte blocks (structural recursion on a fuel
argument so that the definition reduces inside the kernel; every step
drops 64 bytes, so `l.length` steps of fuel always suffice). -/
def blocksGo : Nat → List Nat → List (List Nat)
  | 0, _ => []
  | _, [] => []
  | fuel + 1, a :: l => (a :: l).take 64 :: blocksGo fuel ((a :: l).drop 64)

/-- Split a byte list into 64-byte blocks. -/
def blocks (l : List Nat) : List (List Nat) := blocksGo l.length l

/-- The sixteen 32-bit little-endian words of one 64-byte block. -/
def words (b : List Nat) : List Nat :=
  (List.range 16).map (fun i =>
    b.getD (4 * i) 0 + 256 * b.getD (4 * i + 1) 0 +
    65536 * b.getD (4 * i + 2) 0 + 16777216 * b.getD (4 * i + 3) 0)

def not32 (x : Nat) : Nat := x ^^^ 0xffffffff

/-- One of the 64 MD5 rounds. -/
def round (M : List Nat) (st : Nat × Nat × Nat × Nat) (i : Nat) :
    Nat × Nat × Nat × Nat :=
  let (a, b, c, d) := st
  let fg : Nat × Nat :=
    if i < 16 then ((b &&& c) ||| (not32 b &&& d), i)
    else if i < 32 then ((d &&& b) ||| (not32 d &&& c), (5 * i + 1) % 16)
    else if i < 48 then (b ^^^ c ^^^ d, (3 * i + 5) % 16)
    else (c ^^^ (b ||| not32 d), (7 * i) % 16)
  let f := (fg.1 + a + K.getD i 0 + M.getD fg.2 0) % M32
  (d, (b + rotl f (shifts.getD i 0)) % M32, b, c)

/-- Process one 64-byte block. -/
def processBlock (st : Nat × Nat × Nat × Nat) (blk : List Nat) :
    Nat × Nat × Nat × Nat :=
  let M := words blk
  let r := (List.range 64).foldl (round M) st
  ((st.1 + r.1) % M32, (st.2.1 + r.2.1) % M32,
   (st.2.2.1 + r.2.2.1) % M32, (st.2.2.2 + r.2.2.2) % M32)

def initState : Nat × Nat × Nat × Nat :=
  (0x67452301, 0xefcdab89, 0x98badcfe, 0x10325476)

/-- The 16 digest bytes of a byte message. -/
def md5Bytes (msg : List Nat) : List Nat :=
  let st := (blocks (padMessage msg)).foldl processBlock initState
  toLE 4 st.1 ++ toLE 4 st.2.1 ++ toLE 4 st.2.2.1 ++ toLE 4 st.2.2.2

def hexDigit (n : Nat) : Char :=
  "0123456789abcdef".data.getD n '0'

/-- Lowercase hexadecimal rendering of a byte list (`hexdigest()`). -/
def toHex (bytes : List Nat) : String :=
  String.mk ((bytes.map (fun b => [hexDigit (b / 16), hexDigit (b % 16)])).join)

end MD5

/-- UTF-8 encoding of one Unicode scalar value (Python `str.encode("utf-8")`
per character). -/
def utf8EncodeChar (c : Nat) : List Nat :=
  if c < 0x80 then [c]
  else if c < 0x800 then
    [0xc0 ||| (c >>> 6), 0x80 ||| (c &&& 0x3f)]
  else if c < 0x10000 then
    [0xe0 ||| (c >>> 12), 0x80 ||| ((c >>> 6) &&& 0x3f), 0x80 ||| (c &&& 0x3f)]
  else
    [0xf0 ||| (c >>> 18), 0x80 ||| ((c >>> 12) &&& 0x3f),
     0x80 ||| ((c >>> 6) &&& 0x3f), 0x80 ||| (c &&& 0x3f)]

/-- `s.encode("utf-8")` as a byte list. -/
def utf8Bytes (s : String) : List Nat :=
  (s.data.map (fun c => utf8EncodeChar c.toNat)).join

/-- `hashlib.md5(s.encode("utf-8")).hexdigest()`. -/
def md5Hex (s : String) : String := MD5.toHex (MD5.md5Bytes (utf8Bytes s))

/-! ### `_get_index_name` -/

/-- Python `sorted` on a list of strings (ascending lexicographic order on
code points, which is `String.le`). -/
def pySortStrings (l : List String) : List String :=
  List.insertionSort (fun a b : String => a ≤ b) l

/-- `_get_index_name`. `idsSet` models `self.ids_set : Optional[Set[str]]`;
a Python set is a duplicate-free collection, rendered here as the list of
its elements (in arbitrary order). `indexPrefix` is `self.index_prefix`
and `version` the string `self.dd_version.public`. -/
def getIndexName (indexPrefix version : String)
    (idsSet : Option (List String)) : String :=
  let indexname := indexPrefix ++ "_" ++ version
  match idsSet with
  | none => indexname
  | some l =>
    if 0 < l.length then
      let idsStr := String.intercalate "," (pySortStrings l)
      let hashSuffix := (md5Hex idsStr).take 8
      indexname ++ "-" ++ hashSuffix
    else indexname

/-! ### The XML tree, `_build_element_entry` and `_get_document`

An `ElementTree` element carries a tag and the three attributes the
pipeline reads (`name`, `documentation`, `units`), each possibly absent.
`findall(".//…")` returns descendants in document order (preorder). -/

inductive XTree where
  | node (tag : String) (name documentation units : Option String)
         (children : List XTree)

def XTree.tag : XTree → String
  | .node t _ _ _ _ => t

def XTree.nameAttr : XTree → Option String
  | .node _ n _ _ _ => n

def XTree.docAttr : XTree → Option String
  | .node _ _ d _ _ => d

def XTree.unitsAttr : XTree → Option String
  | .node _ _ _ u _ => u

def XTree.children : XTree → List XTree
  | .node _ _ _ _ cs => cs

mutual
/-- Descendants of a node (excluding the node itself) in document order:
`node.findall(".//*")`. -/
def descTree : XTree → List XTree
  | .node _ _ _ _ cs => descList cs

def descList : List XTree → List XTree
  | [] => []
  | c :: cs => c :: (descTree c ++ descList cs)
end

mutual
/-- Each descendant of the subtree rooted at `t`, paired with its walker
chain: the list `[elem, parent(elem), …]` of elements from the descendant
up to (excluding) the top-level node whose traversal supplied `above`.
This is exactly the sequence of `walker` values the
`while walker is not None and walker != ids_node` loop of
`_build_element_entry` visits, as recovered from `parent_map`. -/
def walkPairs : XTree → List XTree → List (XTree × List XTree)
  | t@(.node _ _ _ _ cs), above =>
    (t, t :: above) :: walkPairsList cs (t :: above)

def walkPairsList : List XTree → List XTree → List (XTree × List XTree)
  | [], _ => []
  | c :: cs, above => walkPairs c above ++ walkPairsList cs above
end

/-- One output record of `_get_document` / `_build_element_entry`. -/
structure DocEntry where
  path : String
  documentation : String
  units : String
  ids_name : String
deriving DecidableEq, Repr

/-- State of the upward walk of `_build_element_entry`:
`path_parts`, `documentation_parts` and the `units` variable. -/
structure WalkState where
  pathParts : List String
  docParts : List (String × String)
  units : String
deriving Repr

/-- The body of the `while` loop of `_build_element_entry`, iterated over
the walker chain. For walker `w` the parent (`parent_map.get(walker)`) is
the next chain element, or `ids` for the last one. -/
def walkLoop (idsName : String) (ids : XTree) :
    List XTree → WalkState → WalkState
  | [], st => st
  | w :: rest, st =>
    let st1 :=
      match w.nameAttr with
      | some nm =>
        if nm = "" then st
        else
          let pathParts := nm :: st.pathParts
          let docParts :=
            match w.docAttr with
            | some d =>
              if d = "" then st.docParts
              else dictInsert st.docParts
                (String.intercalate "/" (idsName :: pathParts)) d
            | none => st.docParts
          { st with pathParts := pathParts, docParts := docParts }
      | none => st
    let parent := match rest with
      | p :: _ => p
      | [] => ids
    let units :=
      if st1.units = "as_parent" then
        match parent.unitsAttr with
        | some pu => if pu = "" then st1.units else pu
        | none => st1.units
      else st1.units
    walkLoop idsName ids rest { st1 with units := units }

/-- The initial value of the `units` variable of the walk:
`elem.get("units", "")` for the walked element (the chain's head). -/
def elemUnitsOf (chain : List XTree) : String :=
  match chain with
  | e :: _ => e.unitsAttr.getD ""
  | [] => ""

/-- `_build_element_entry(elem, ids_node, ids_name, parent_map)`, with the
walker chain `chain = [elem, parent(elem), …]` (excluding `ids`) passed
explicitly in place of `parent_map`. -/
def buildElementEntry (chain : List XTree) (ids : XTree)
    (idsName : String) : Option DocEntry :=
  let st := walkLoop idsName ids chain ⟨[], [], elemUnitsOf chain⟩
  if st.pathParts = [] then none
  else
    let docParts := match ids.docAttr with
      | some d => if d = "" then st.docParts else dictInsert st.docParts idsName d
      | none => st.docParts
    let combined := buildHierarchicalDocumentation docParts
    let elemDoc := match chain with
      | e :: _ => e.docAttr.getD ""
      | [] => ""
    some { path := idsName ++ "/" ++ String.intercalate "/" st.pathParts,
           documentation := if combined = "" then elemDoc else combined,
           units := if st.units = "" then "none" else st.units,
           ids_name := idsName }

/-- The record `_get_document` yields for the IDS root element itself. -/
def idsRootEntry (ids : XTree) (idsName : String) : DocEntry :=
  { path := idsName,
    documentation := ids.docAttr.getD "",
    units := ids.unitsAttr.getD "none",
    ids_name := idsName }

/-- The record list one selected IDS node contributes to `_get_document`:
its own root record followed by one record per named descendant
(document order) for which `_build_element_entry` returns an entry. -/
def idsDocuments (ids : XTree) : List DocEntry :=
  match ids.nameAttr with
  | none => []
  | some idsName =>
    if idsName = "" then []
    else
      idsRootEntry ids idsName ::
        (walkPairsList ids.children []).filterMap (fun ec =>
          if ec.1.nameAttr.isSome then buildElementEntry ec.2 ids idsName
          else none)

/-- `_get_document()`: `root.findall(".//IDS[@name]")` filtered by the
resolved working set `idsToProcess` (the value of `_get_ids_set()`), each
contributing its root record and its named descendants' records. -/
def getDocument (root : XTree) (idsToProcess : List String) :
    List DocEntry :=
  let idsNodes := (descTree root).filter (fun n =>
    n.tag == "IDS" && n.nameAttr.isSome &&
      decide (n.nameAttr.getD "" ∈ idsToProcess))
  (idsNodes.map idsDocuments).join

/-! ### `_get_document_batch` -/

/-- A record reaching the batcher: a dictionary that may lack keys.
`none` models an absent key. -/
structure DocRec where
  path : Option String
  documentation : Option String
  units : Option String
  ids_name : Option String
deriving DecidableEq, Repr

/-- The loop of `_get_document_batch` over the document stream, carrying
the buffer `documents_batch` and the set `processed_paths` (as a list).
A record whose `path` is absent, empty or already seen is skipped; a
record missing one of the three required keys is skipped; otherwise it is
appended and a batch is yielded once the buffer reaches `batchSize`. -/
def batchGo (B : Nat) : List DocRec → List DocRec → List String →
    List (List DocRec)
  | [], buf, _ => if buf.isEmpty then [] else [buf]
  | r :: rest, buf, seen =>
    match r.path with
    | none => batchGo B rest buf seen
    | some p =>
      if p = "" ∨ p ∈ seen then batchGo B rest buf seen
      else if r.documentation.isSome ∧ r.ids_name.isSome then
        let buf' := buf ++ [r]
        if B ≤ buf'.length then buf' :: batchGo B rest [] (p :: seen)
        else batchGo B rest buf' (p :: seen)
      else batchGo B rest buf seen

/-- `_get_document_batch(batch_size)` applied to a document stream. -/
def getDocumentBatch (stream : List DocRec) (B : Nat) :
    List (List DocRec) :=
  batchGo B stream [] []

/-- First-occurrence-wins deduplication by `path`, as the claims state it
(records keyed by their `path` value). -/
def dedupByPath : List DocRec → List String → List DocRec
  | [], _ => []
  | r :: rest, seen =>
    let p := r.path.getD ""
    if p ∈ seen then dedupByPath rest seen
    else r :: dedupByPath rest (p :: seen)

/-- The element of a list with the maximal key, later elements winning
ties (used to characterise `paths_by_depth[-1]`). -/
def lastMaxBy (k : String → Nat) : List String → Option String
  | [] => none
  | x :: xs =>
    match lastMaxBy k xs with
    | none => some x
    | some y => some (if k y < k x then x else y)

/-- A well-formed document record: the three required keys are present and
`path` is truthy (the shape every record produced by `_get_document` has). -/
def wfRec (r : DocRec) : Prop :=
  r.path ≠ none ∧ r.path ≠ some "" ∧
    r.documentation.isSome = true ∧ r.ids_name.isSome = true

instance (r : DocRec) : Decidable (wfRec r) := by
  unfold wfRec
  infer_instance

/-- Pure size-driven chunking with an explicit buffer: what `batchGo` does
once deduplication is factored out. -/
def chunksAcc (B : Nat) : List DocRec → List DocRec → List (List DocRec)
  | buf, [] => if buf.isEmpty then [] else [buf]
  | buf, x :: xs =>
    if B ≤ (buf ++ [x]).length then (buf ++ [x]) :: chunksAcc B [] xs
    else chunksAcc B (buf ++ [x]) xs

/-- A record for which the `all(key in entry_dict ...)` guard of
`_get_document_batch` fails: at least one of the three required keys is
absent. -/
def missingKey (r : DocRec) : Prop :=
  r.path = none ∨ r.documentation = none ∨ r.ids_name = none

instance (r : DocRec) : Decidable (missingKey r) := by
  unfold missingKey
  infer_instance

/-- Every record of a well-keyed buffer that `batchGo` emits carries the
three required keys. -/
def hasKeys (r : DocRec) : Prop :=
  r.path.isSome = true ∧ r.documentation.isSome = true ∧
    r.ids_name.isSome = true

/-- The `units` variable after the walk, as a fold over the sequence of
parent `units` attributes consulted at each loop iteration. -/
def resolveUnits : String → List (Option String) → String
  | u, [] => u
  | u, pu :: rest =>
    resolveUnits
      (if u = "as_parent" then
        match pu with
        | some s => if s = "" then u else s
        | none => u
      else u) rest

/-- The `units` attribute of the parent of each walker in the chain: the
next chain element's, or the IDS node's for the last walker. -/
def parentUnitsList : List XTree → XTree → List (Option String)
  | [], _ => []
  | _ :: rest, ids =>
    (match rest with
     | p :: _ => p
     | [] => ids).unitsAttr :: parentUnitsList rest ids

/-- A parent `units` value through which the inheritance marker survives:
absent, empty, or itself the marker. -/
def inheritOpaque (pu : Option String) : Prop :=
  pu = none ∨ pu = some "" ∨ pu = some "as_parent"

/-- The number of leading `#` characters of a string: the markdown header
level a rendered block opens with. -/
def leadingHashes (s : String) : Nat :=
  (s.data.takeWhile (fun c => c == '#')).length

/-! ### Concrete schemas used as witnesses and counterexamples -/

/-- End-to-end scenario schema: IDS `X` (documentation "root doc"), child
`Y` (documentation "child doc", units "m"), grandchild `Z` (no
documentation, units "as_parent"). -/
def exSchemaX : XTree :=
  .node "root" none none none
    [.node "IDS" (some "X") (some "root doc") none
      [.node "field" (some "Y") (some "child doc") (some "m")
        [.node "field" (some "Z") none (some "as_parent") []]]]

/-- A schema whose units-inheritance chain dangles: IDS `W` carries no
units, its child `V` carries the marker `as_parent`. -/
def exSchemaW : XTree :=
  .node "root" none none none
    [.node "IDS" (some "W") none none
      [.node "field" (some "V") none (some "as_parent") []]]

/-- The `V` element of `exSchemaW`. -/
def exV : XTree := .node "field" (some "V") none (some "as_parent") []

/-- The `W` IDS node of `exSchemaW`. -/
def exW : XTree := .node "IDS" (some "W") none none [exV]

/-- The root record the extractor yields for the IDS `X` of `exSchemaX`. -/
def exRootRecord : DocEntry :=
  { path := "X", documentation := "root doc", units := "none",
    ids_name := "X" }

instance : IsTotal String (fun a b : String => a ≤ b) :=
  ⟨fun a b => le_total a b⟩

instance : IsTrans String (fun a b : String => a ≤ b) :=
  ⟨fun _ _ _ => le_trans⟩

instance : IsAntisymm String (fun a b : String => a ≤ b) :=
  ⟨fun _ _ => le_antisymm⟩

/-- The context-block format as the specification words it: header level
`min(6, depth + 2)`; past level 6 the path is bolded inline under a
level-6 header with two spaces of indentation per excess level. -/
def specContextBlock (parts : List (String × String)) (pathKey : String) :
    Option String :=
  let doc := (List.lookup pathKey parts).getD ""
  if doc = "" then none
  else
    let depth := slashCount pathKey + 1
    let level := min 6 (depth + 2)
    if depth + 2 ≤ 6 then
      some (hashes level ++ " " ++ pathKey ++ "\n" ++ doc)
    else
      let indent := spaces (2 * (depth + 2 - 6))
      some (hashes level ++ " " ++ indent ++ "**" ++ pathKey ++ "**\n" ++
        indent ++ doc)

/-! ### Lemmas about the stable sort used by the composer -/

theorem lastMaxBy_eq_none_iff {k : String → Nat} {l : List String} :
    lastMaxBy k l = none ↔ l = [] := by
  cases l with
  | nil => simp [lastMaxBy]
  | cons x xs =>
    simp only [lastMaxBy]
    cases lastMaxBy k xs <;> simp

theorem lastMaxBy_mem {k : String → Nat} :
    ∀ {l : List String} {y : String}, lastMaxBy k l = some y → y ∈ l := by
  intro l
  induction l with
  | nil => intro y h; simp [lastMaxBy] at h
  | cons x xs ih =>
    intro y h
    simp only [lastMaxBy] at h
    cases hm : lastMaxBy k xs with
    | none =>
      rw [hm] at h
      simp only [Option.some.injEq] at h
      simp [← h]
    | some z =>
      rw [hm] at h
      simp only [Option.some.injEq] at h
      by_cases hk : k z < k x
      · rw [if_pos hk] at h
        simp [← h]
      · rw [if_neg hk] at h
        exact List.mem_cons_of_mem x (ih (h ▸ hm))

theorem lastMaxBy_max {k : String → Nat} :
    ∀ {l : List String} {y : String}, lastMaxBy k l = some y →
      ∀ x ∈ l, k x ≤ k y := by
  intro l
  induction l with
  | nil => intro y h; simp [lastMaxBy] at h
  | cons x xs ih =>
    intro y h z hz
    simp only [lastMaxBy] at h
    cases hm : lastMaxBy k xs with
    | none =>
      rw [hm] at h
      simp only [Option.some.injEq] at h
      have hxs : xs = [] := lastMaxBy_eq_none_iff.mp hm
      subst hxs
      simp only [List.mem_singleton] at hz
      subst hz
      exact h ▸ Nat.le_refl _
    | some w =>
      rw [hm] at h
      simp only [Option.some.injEq] at h
      rcases List.mem_cons.mp hz with hzx | hzxs
      · subst hzx
        by_cases hk : k w < k z
        · rw [if_pos hk] at h; exact h ▸ Nat.le_refl _
        · rw [if_neg hk] at h; exact h ▸ Nat.le_of_not_lt hk
      · have hw := ih hm z hzxs
        by_cases hk : k w < k x
        · rw [if_pos hk] at h
          exact h ▸ Nat.le_trans hw (Nat.le_of_lt hk)
        · rw [if_neg hk] at h
          exact h ▸ hw

theorem getLast?_cons_of_ne_nil {α : Type} {a : α} {l : List α}
    (h : l ≠ []) : (a :: l).getLast? = l.getLast? := by
  cases l with
  | nil => exact absurd rfl h
  | cons b t => exact List.getLast?_cons_cons

theorem orderedInsert_ne_nil (x : String) (s : List String) :
    List.orderedInsert depthLe x s ≠ [] := by
  cases s with
  | nil => simp [List.orderedInsert]
  | cons y ys =>
    simp only [List.orderedInsert]
    split <;> simp

theorem getLast?_orderedInsert (x : String) (s : List String) :
    (List.orderedInsert depthLe x s).getLast? =
      if ∀ y ∈ s, ¬ depthLe x y then some x else s.getLast? := by
  induction s with
  | nil => simp [List.orderedInsert]
  | cons y ys ih =>
    simp only [List.orderedInsert]
    by_cases hr : depthLe x y
    · rw [if_pos hr]
      rw [if_neg (by push_neg; exact ⟨y, List.mem_cons_self y ys, hr⟩)]
      exact List.getLast?_cons_cons
    · rw [if_neg hr]
      rw [getLast?_cons_of_ne_nil (orderedInsert_ne_nil x ys), ih]
      by_cases hall : ∀ z ∈ ys, ¬ depthLe x z
      · rw [if_pos hall, if_pos (by
          intro z hz
          rcases List.mem_cons.mp hz with h1 | h2
          · exact h1 ▸ hr
          · exact hall z h2)]
      · rw [if_neg hall, if_neg (by
          intro hc
          exact hall (fun z hz => hc z (List.mem_cons_of_mem y hz)))]
        push_neg at hall
        rcases hall with ⟨z, hz, _⟩
        exact (getLast?_cons_of_ne_nil (List.ne_nil_of_mem hz)).symm

theorem getLast?_insertionSort_eq_lastMaxBy (l : List String) :
    (List.insertionSort depthLe l).getLast? = lastMaxBy slashCount l := by
  induction l with
  | nil => simp [List.insertionSort, lastMaxBy]
  | cons x xs ih =>
    cases hm : lastMaxBy slashCount xs with
    | none =>
      have hxs : xs = [] := lastMaxBy_eq_none_iff.mp hm
      subst hxs
      simp [List.insertionSort, List.orderedInsert, lastMaxBy]
    | some y =>
      rw [hm] at ih
      have hrhs : lastMaxBy slashCount (x :: xs) =
          some (if slashCount y < slashCount x then x else y) := by
        simp [lastMaxBy, hm]
      rw [hrhs]
      simp only [List.insertionSort]
      rw [getLast?_orderedInsert]
      by_cases hk : slashCount y < slashCount x
      · rw [if_pos (by
          intro z hz
          have hzmem : z ∈ xs := (List.mem_insertionSort depthLe).mp hz
          have hzle := lastMaxBy_max hm z hzmem
          exact Nat.not_le_of_lt (Nat.lt_of_le_of_lt hzle hk)), if_pos hk]
      · rw [if_neg (by
          intro hc
          have hy : y ∈ List.insertionSort depthLe xs :=
            (List.mem_insertionSort depthLe).mpr (lastMaxBy_mem hm)
          exact hc y hy (Nat.le_of_not_lt hk)), if_neg hk]
        exact ih

/-! ### Stability of the sort: equal-depth keys keep their order -/

theorem filter_orderedInsert_of_eq {x : String} {d : Nat}
    (h : slashCount x = d) (s : List String) :
    (List.orderedInsert depthLe x s).filter (fun p => slashCount p == d) =
      x :: s.filter (fun p => slashCount p == d) := by
  induction s with
  | nil => simp [List.orderedInsert, List.filter_cons, h]
  | cons y ys ih =>
    simp only [List.orderedInsert]
    by_cases hr : depthLe x y
    · rw [if_pos hr]
      simp [List.filter_cons, h]
    · rw [if_neg hr]
      have hy : slashCount y ≠ d := by
        intro hc
        exact hr (by simp [depthLe, h, hc])
      simp [List.filter_cons, hy, ih]

theorem filter_orderedInsert_of_ne {x : String} {d : Nat}
    (h : slashCount x ≠ d) (s : List String) :
    (List.orderedInsert depthLe x s).filter (fun p => slashCount p == d) =
      s.filter (fun p => slashCount p == d) := by
  induction s with
  | nil => simp [List.orderedInsert, List.filter_cons, h]
  | cons y ys ih =>
    simp only [List.orderedInsert]
    by_cases hr : depthLe x y
    · rw [if_pos hr]
      simp [List.filter_cons, h]
    · rw [if_neg hr]
      simp [List.filter_cons, ih]

theorem filter_insertionSort_depth (l : List String) (d : Nat) :
    (List.insertionSort depthLe l).filter (fun p => slashCount p == d) =
      l.filter (fun p => slashCount p == d) := by
  induction l with
  | nil => rfl
  | cons x xs ih =>
    simp only [List.insertionSort]
    by_cases hx : slashCount x = d
    · rw [filter_orderedInsert_of_eq hx, ih]
      simp [List.filter_cons, hx]
    · rw [filter_orderedInsert_of_ne hx, ih]
      simp [List.filter_cons, hx]

/-! ### Lemmas about the batcher -/

theorem batchGo_eq_chunksAcc (B : Nat) :
    ∀ (stream : List DocRec) (buf : List DocRec) (seen : List String),
      (∀ r ∈ stream, wfRec r) →
      batchGo B stream buf seen = chunksAcc B buf (dedupByPath stream seen)
  | [], buf, seen, _ => by simp [batchGo, dedupByPath, chunksAcc]
  | r :: rest, buf, seen, hwf => by
    obtain ⟨hpn, hps, hdoc, hids⟩ := hwf r (List.mem_cons_self r rest)
    have hwrest : ∀ x ∈ rest, wfRec x :=
      fun x hx => hwf x (List.mem_cons_of_mem r hx)
    cases hp : r.path with
    | none => exact absurd hp hpn
    | some p =>
    have hpne : p ≠ "" := fun hc => hps (by rw [hp, hc])
    simp only [batchGo, dedupByPath, hp, Option.getD_some]
    by_cases hseen : p ∈ seen
    · rw [if_pos (Or.inr hseen), if_pos hseen]
      exact batchGo_eq_chunksAcc B rest buf seen hwrest
    · rw [if_neg (by
        intro hc
        rcases hc with hc | hc
        · exact hpne hc
        · exact hseen hc), if_neg hseen]
      rw [if_pos ⟨hdoc, hids⟩]
      simp only [chunksAcc]
      by_cases hlen : B ≤ (buf ++ [r]).length
      · rw [if_pos hlen, if_pos hlen,
          batchGo_eq_chunksAcc B rest [] (p :: seen) hwrest]
      · rw [if_neg hlen, if_neg hlen,
          batchGo_eq_chunksAcc B rest (buf ++ [r]) (p :: seen) hwrest]

theorem join_chunksAcc (B : Nat) :
    ∀ (l : List DocRec) (buf : List DocRec),
      (chunksAcc B buf l).join = buf ++ l
  | [], buf => by
    by_cases h : buf.isEmpty
    · simp only [chunksAcc, if_pos h]
      simp [List.isEmpty_iff.mp h]
    · simp only [chunksAcc, if_neg h]
      simp
  | x :: xs, buf => by
    simp only [chunksAcc]
    by_cases hlen : B ≤ (buf ++ [x]).length
    · rw [if_pos hlen]
      simp only [List.join_cons, join_chunksAcc B xs []]
      simp
    · rw [if_neg hlen, join_chunksAcc B xs (buf ++ [x])]
      simp

theorem length_chunksAcc (B : Nat) :
    ∀ (l : List DocRec) (buf : List DocRec), buf.length < B →
      (chunksAcc B buf l).length = (buf.length + l.length + B - 1) / B
  | [], buf, hbuf => by
    by_cases h : buf.isEmpty
    · have : buf = [] := List.isEmpty_iff.mp h
      subst this
      simp only [chunksAcc, if_pos h]
      have : (0 + 0 + B - 1) / B = 0 := Nat.div_eq_of_lt (by omega)
      simpa using this.symm
    · have hne : buf ≠ [] := fun hc => h (by simp [hc])
      have hpos : 0 < buf.length := List.length_pos.mpr hne
      simp only [chunksAcc, if_neg h, List.length_cons, List.length_nil]
      have : (buf.length + 0 + B - 1) / B = 1 := by
        apply Nat.div_eq_of_lt_le <;> omega
      omega
  | x :: xs, buf, hbuf => by
    simp only [chunksAcc]
    by_cases hlen : B ≤ (buf ++ [x]).length
    · rw [if_pos hlen]
      have hB : buf.length + 1 = B := by
        simp only [List.length_append, List.length_cons, List.length_nil] at hlen
        omega
      rw [List.length_cons,
        length_chunksAcc B xs [] (by simp only [List.length_nil]; omega)]
      simp only [List.length_nil, List.length_cons, Nat.zero_add]
      have h1 : buf.length + (xs.length + 1) + B - 1 =
          xs.length + B - 1 + B := by
        omega
      rw [h1, Nat.add_div_right _ (by omega)]
    · rw [if_neg hlen]
      have hlt : (buf ++ [x]).length < B := Nat.lt_of_not_le hlen
      rw [length_chunksAcc B xs (buf ++ [x]) hlt]
      congr 1
      simp only [List.length_append, List.length_cons, List.length_nil]
      omega

theorem chunksAcc_ne_nil (B : Nat) :
    ∀ (l : List DocRec) (buf : List DocRec), buf ≠ [] ∨ l ≠ [] →
      chunksAcc B buf l ≠ []
  | [], buf, h => by
    rcases h with h | h
    · simp only [chunksAcc, if_neg (fun hc => h (List.isEmpty_iff.mp hc))]
      simp
    · exact absurd rfl h
  | x :: xs, buf, _ => by
    simp only [chunksAcc]
    by_cases hlen : B ≤ (buf ++ [x]).length
    · rw [if_pos hlen]; simp
    · rw [if_neg hlen]
      exact chunksAcc_ne_nil B xs (buf ++ [x]) (Or.inl (by simp))

theorem dropLast_chunksAcc (B : Nat) :
    ∀ (l : List DocRec) (buf : List DocRec), buf.length < B →
      ∀ c ∈ (chunksAcc B buf l).dropLast, c.length = B
  | [], buf, _, c, hc => by
    by_cases hb : buf.isEmpty
    · rw [chunksAcc, if_pos hb] at hc
      simp at hc
    · rw [chunksAcc, if_neg hb] at hc
      simp at hc
  | x :: xs, buf, hbuf, c, hc => by
    by_cases hlen : B ≤ (buf ++ [x]).length
    · have hB : (buf ++ [x]).length = B := by
        simp only [List.length_append, List.length_cons, List.length_nil] at *
        omega
      rw [chunksAcc, if_pos hlen] at hc
      cases hrec : chunksAcc B ([] : List DocRec) xs with
      | nil =>
        rw [hrec] at hc
        simp at hc
      | cons r rs =>
        rw [hrec, List.dropLast_cons₂] at hc
        rcases List.mem_cons.mp hc with hc1 | hc2
        · rw [hc1]; exact hB
        · have := dropLast_chunksAcc B xs [] (by
            simp only [List.length_nil]; omega) c (by rw [hrec]; exact hc2)
          exact this
    · rw [chunksAcc, if_neg hlen] at hc
      exact dropLast_chunksAcc B xs (buf ++ [x]) (Nat.lt_of_not_le hlen) c hc

theorem getLast?_chunksAcc (B : Nat) :
    ∀ (l : List DocRec) (buf : List DocRec), buf.length < B →
      buf ≠ [] ∨ l ≠ [] →
      (chunksAcc B buf l).getLast?.map List.length =
        some (if (buf.length + l.length) % B = 0 then B
              else (buf.length + l.length) % B)
  | [], buf, hbuf, hor => by
    have hne : buf ≠ [] := by
      rcases hor with h | h
      · exact h
      · exact absurd rfl h
    have hpos : 0 < buf.length := List.length_pos.mpr hne
    have hmod : buf.length % B = buf.length := Nat.mod_eq_of_lt hbuf
    rw [chunksAcc, if_neg (fun hc => hne (List.isEmpty_iff.mp hc))]
    simp only [List.getLast?_singleton, Option.map_some', List.length_nil,
      Nat.add_zero, Option.some.injEq]
    rw [hmod, if_neg (by omega)]
  | x :: xs, buf, hbuf, _ => by
    by_cases hlen : B ≤ (buf ++ [x]).length
    · have hB : buf.length + 1 = B := by
        simp only [List.length_append, List.length_cons, List.length_nil] at hlen
        omega
      rw [chunksAcc, if_pos hlen]
      by_cases hxs : xs = []
      · subst hxs
        have hnil : chunksAcc B ([] : List DocRec) [] = [] := by
          simp [chunksAcc]
        rw [hnil]
        simp only [List.getLast?_singleton, Option.map_some', Option.some.injEq,
          List.length_append, List.length_cons, List.length_nil]
        rw [show buf.length + (0 + 1) = B by omega, Nat.mod_self, if_pos rfl]
      · have hrec : chunksAcc B ([] : List DocRec) xs ≠ [] :=
          chunksAcc_ne_nil B xs [] (Or.inr hxs)
        rw [getLast?_cons_of_ne_nil hrec,
          getLast?_chunksAcc B xs [] (by simp only [List.length_nil]; omega)
            (Or.inr hxs)]
        simp only [List.length_nil, List.length_cons, Nat.zero_add,
          Option.some.injEq]
        have hN : buf.length + (xs.length + 1) = B + xs.length := by omega
        rw [hN, Nat.add_mod_left]
    · have hlt : (buf ++ [x]).length < B := Nat.lt_of_not_le hlen
      rw [chunksAcc, if_neg hlen]
      rw [getLast?_chunksAcc B xs (buf ++ [x]) hlt (Or.inl (by simp))]
      have heq : (buf ++ [x]).length + xs.length = buf.length + (x :: xs).length := by
        simp only [List.length_append, List.length_cons, List.length_nil]
        omega
      rw [heq]

theorem batchGo_drop_missingKey (B : Nat) (r : DocRec) (h : missingKey r) :
    ∀ (l1 l2 : List DocRec) (buf : List DocRec) (seen : List String),
      batchGo B (l1 ++ r :: l2) buf seen = batchGo B (l1 ++ l2) buf seen
  | [], l2, buf, seen => by
    simp only [List.nil_append]
    cases hp : r.path with
    | none => simp only [batchGo, hp]
    | some p =>
      simp only [batchGo, hp]
      by_cases hskip : p = "" ∨ p ∈ seen
      · rw [if_pos hskip]
      · rw [if_neg hskip, if_neg (by
          intro ⟨hdoc, hids⟩
          rcases h with h | h | h
          · rw [hp] at h; exact Option.noConfusion h
          · rw [h] at hdoc; exact Bool.noConfusion hdoc
          · rw [h] at hids; exact Bool.noConfusion hids)]
  | x :: l1, l2, buf, seen => by
    cases hp : x.path with
    | none =>
      simp only [List.cons_append, batchGo, hp]
      exact batchGo_drop_missingKey B r h l1 l2 buf seen
    | some p =>
      simp only [List.cons_append, batchGo, hp]
      by_cases hskip : p = "" ∨ p ∈ seen
      · rw [if_pos hskip, if_pos hskip]
        exact batchGo_drop_missingKey B r h l1 l2 buf seen
      · rw [if_neg hskip, if_neg hskip]
        by_cases hkeys : x.documentation.isSome = true ∧ x.ids_name.isSome = true
        · rw [if_pos hkeys, if_pos hkeys]
          by_cases hlen : B ≤ (buf ++ [x]).length
          · rw [if_pos hlen, if_pos hlen]
            exact congrArg _ (batchGo_drop_missingKey B r h l1 l2 [] (p :: seen))
          · rw [if_neg hlen, if_neg hlen]
            exact batchGo_drop_missingKey B r h l1 l2 (buf ++ [x]) (p :: seen)
        · rw [if_neg hkeys, if_neg hkeys]
          exact batchGo_drop_missingKey B r h l1 l2 buf seen

theorem batchGo_hasKeys (B : Nat) :
    ∀ (stream : List DocRec) (buf : List DocRec) (seen : List String),
      (∀ x ∈ buf, hasKeys x) →
      ∀ b ∈ batchGo B stream buf seen, ∀ x ∈ b, hasKeys x
  | [], buf, seen, hbuf, b, hb => by
    by_cases he : buf.isEmpty
    · rw [batchGo, if_pos he] at hb
      simp at hb
    · rw [batchGo, if_neg he] at hb
      simp only [List.mem_singleton] at hb
      exact hb ▸ hbuf
  | r :: rest, buf, seen, hbuf, b, hb => by
    cases hp : r.path with
    | none =>
      simp only [batchGo, hp] at hb
      exact batchGo_hasKeys B rest buf seen hbuf b hb
    | some p =>
      simp only [batchGo, hp] at hb
      by_cases hskip : p = "" ∨ p ∈ seen
      · rw [if_pos hskip] at hb
        exact batchGo_hasKeys B rest buf seen hbuf b hb
      · rw [if_neg hskip] at hb
        by_cases hkeys : r.documentation.isSome = true ∧ r.ids_name.isSome = true
        · rw [if_pos hkeys] at hb
          have hbuf' : ∀ x ∈ buf ++ [r], hasKeys x := by
            intro x hx
            rcases List.mem_append.mp hx with hx | hx
            · exact hbuf x hx
            · simp only [List.mem_singleton] at hx
              subst hx
              exact ⟨by rw [hp]; rfl, hkeys⟩
          by_cases hlen : B ≤ (buf ++ [r]).length
          · rw [if_pos hlen] at hb
            rcases List.mem_cons.mp hb with hb1 | hb2
            · intro x hx
              exact hbuf' x (hb1 ▸ hx)
            · exact batchGo_hasKeys B rest [] (p :: seen)
                (by intro x hx; simp at hx) b hb2
          · rw [if_neg hlen] at hb
            exact batchGo_hasKeys B rest (buf ++ [r]) (p :: seen) hbuf' b hb
        · rw [if_neg hkeys] at hb
          exact batchGo_hasKeys B rest buf seen hbuf b hb

/-! ### Lemmas about units resolution in `_build_element_entry` -/

theorem walkLoop_units (idsName : String) (ids : XTree) :
    ∀ (chain : List XTree) (st : WalkState),
      (walkLoop idsName ids chain st).units =
        resolveUnits st.units (parentUnitsList chain ids)
  | [], st => rfl
  | w :: rest, st => by
    cases hw : w.nameAttr with
    | none =>
      simp only [walkLoop, hw, parentUnitsList, resolveUnits]
      rw [walkLoop_units idsName ids rest]
    | some nm =>
      by_cases hnm : nm = ""
      · simp only [walkLoop, hw, if_pos hnm, parentUnitsList, resolveUnits]
        rw [walkLoop_units idsName ids rest]
      · cases hd : w.docAttr with
        | none =>
          simp only [walkLoop, hw, if_neg hnm, hd, parentUnitsList,
            resolveUnits]
          rw [walkLoop_units idsName ids rest]
        | some d =>
          by_cases hde : d = ""
          · simp only [walkLoop, hw, if_neg hnm, hd, if_pos hde,
              parentUnitsList, resolveUnits]
            rw [walkLoop_units idsName ids rest]
          · simp only [walkLoop, hw, if_neg hnm, hd, if_neg hde,
              parentUnitsList, resolveUnits]
            rw [walkLoop_units idsName ids rest]

theorem resolveUnits_of_ne_marker {u : String} (h : u ≠ "as_parent") :
    ∀ ps : List (Option String), resolveUnits u ps = u
  | [] => rfl
  | pu :: rest => by
    simp only [resolveUnits, if_neg h]
    exact resolveUnits_of_ne_marker h rest

theorem resolveUnits_marker_iff :
    ∀ (ps : List (Option String)) (u : String),
      (resolveUnits u ps = "as_parent" ↔
        (u = "as_parent" ∧ ∀ pu ∈ ps, inheritOpaque pu))
  | [], u => by simp [resolveUnits]
  | pu :: rest, u => by
    by_cases hu : u = "as_parent"
    · subst hu
      cases pu with
      | none =>
        have hstep : resolveUnits "as_parent" (none :: rest) =
            resolveUnits "as_parent" rest := rfl
        rw [hstep, resolveUnits_marker_iff rest]
        simp [inheritOpaque]
      | some s =>
        by_cases hs : s = ""
        · subst hs
          have hstep : resolveUnits "as_parent" (some "" :: rest) =
              resolveUnits "as_parent" rest := rfl
          rw [hstep, resolveUnits_marker_iff rest]
          simp [inheritOpaque]
        · by_cases hsm : s = "as_parent"
          · subst hsm
            have hstep : resolveUnits "as_parent" (some "as_parent" :: rest) =
                resolveUnits "as_parent" rest := rfl
            rw [hstep, resolveUnits_marker_iff rest]
            simp [inheritOpaque]
          · have hstep : resolveUnits "as_parent" (some s :: rest) =
                resolveUnits (if s = "" then "as_parent" else s) rest := rfl
            rw [hstep, if_neg hs, resolveUnits_of_ne_marker hsm rest]
            simp only [hsm, false_iff]
            intro hcon
            obtain ⟨-, hall⟩ := hcon
            have hmem := hall (some s) (List.mem_cons_self _ _)
            rcases hmem with h | h | h
            · exact Option.noConfusion h
            · exact hs (Option.some.inj h)
            · exact hsm (Option.some.inj h)
    · have hstep : resolveUnits u (pu :: rest) =
          resolveUnits (if u = "as_parent" then
            match pu with
            | some s => if s = "" then u else s
            | none => u
          else u) rest := rfl
      rw [hstep, if_neg hu, resolveUnits_of_ne_marker hu rest]
      simp [hu]

/-! ### String-level helpers for the composer theorems -/

theorem data_append (s t : String) : (s ++ t).data = s.data ++ t.data := by
  cases s
  cases t
  rfl

theorem takeWhile_hash (n : Nat) (t : List Char) :
    ((List.replicate n '#' ++ ' ' :: t).takeWhile (fun c => c == '#')).length
      = n := by
  induction n with
  | zero => simp [List.takeWhile_cons]
  | succ n ih =>
    simp only [List.replicate_succ, List.cons_append, List.takeWhile_cons]
    simp [ih]

theorem leadingHashes_eq (s : String) (n : Nat) (t : List Char)
    (h : s.data = List.replicate n '#' ++ ' ' :: t) : leadingHashes s = n := by
  unfold leadingHashes
  rw [h]
  exact takeWhile_hash n t

theorem str_ext {s t : String} (h : s.data = t.data) : s = t := by
  cases s
  cases t
  exact congrArg String.mk h

theorem str_append_assoc (a b c : String) : a ++ b ++ c = a ++ (b ++ c) := by
  apply str_ext
  simp [data_append, List.append_assoc]

theorem leadingHashes_hashes_block (n : Nat) (s : String) :
    leadingHashes (hashes n ++ (" " ++ s)) = n := by
  cases s with
  | mk d =>
    exact leadingHashes_eq _ n d (by
      show List.replicate n '#' ++ ([' '] ++ d) =
        List.replicate n '#' ++ ' ' :: d
      rfl)

theorem star_block_ne_header (a b : String) :
    "**" ++ a ++ "**\n" ++ b ≠ "## Hierarchical Context" := by
  intro he
  have h : ("**" ++ a ++ "**\n" ++ b).data =
      ("## Hierarchical Context" : String).data := by rw [he]
  rw [data_append, data_append, data_append] at h
  have h2 : ("**" : String).data = ['*', '*'] := rfl
  have h3 : ("## Hierarchical Context" : String).data =
      '#' :: ("# Hierarchical Context" : String).data := rfl
  rw [h2, h3] at h
  simp only [List.cons_append, List.append_assoc] at h
  injection h with h5 _
  exact absurd h5 (by decide)

/-! ### Shape of extracted records (for the path/ids_name invariant) -/

theorem buildElementEntry_shape {chain : List XTree} {ids : XTree}
    {idsName : String} {e : DocEntry}
    (h : buildElementEntry chain ids idsName = some e) :
    e.ids_name = idsName ∧ ∃ rest, e.path = idsName ++ "/" ++ rest := by
  simp only [buildElementEntry] at h
  split at h
  · exact Option.noConfusion h
  · have he := Option.some.inj h
    subst he
    exact ⟨rfl, _, rfl⟩

theorem idsDocuments_shape (ids : XTree) :
    ∀ e ∈ idsDocuments ids,
      e.path = e.ids_name ∨ ∃ rest, e.path = e.ids_name ++ "/" ++ rest := by
  intro e he
  cases hn : ids.nameAttr with
  | none => simp [idsDocuments, hn] at he
  | some idsName =>
    simp only [idsDocuments, hn] at he
    by_cases h0 : idsName = ""
    · rw [if_pos h0] at he
      simp at he
    · rw [if_neg h0] at he
      rcases List.mem_cons.mp he with he1 | he2
      · left
        rw [he1]
        rfl
      · right
        obtain ⟨ec, _, hec⟩ := List.mem_filterMap.mp he2
        split at hec
        · obtain ⟨hids, rest, hrest⟩ := buildElementEntry_shape hec
          exact ⟨rest, by rw [hrest, hids]⟩
        · exact Option.noConfusion hec

/-! ### The claims -/

/-- C3: the index identity is a deterministic function of
(prefix, version, subset content): a non-empty subset yields
`{prefix}_{version}-{h}` with `h` the first 8 hex characters of the MD5
digest of the UTF-8 bytes of the comma-joined sorted subset names —
independent of the order the subset elements are supplied — while an
absent or empty subset yields `{prefix}_{version}`; in particular subset
`{"X"}` with version "3.40.0" and prefix "semantic" yields
`"semantic_3.40.0-"` followed by the first 8 hex characters of MD5("X")
(which are "02129bb8"). -/
theorem claim3_index_identity :
    (∀ (p v : String) (l : List String), l ≠ [] →
      getIndexName p v (some l) =
        p ++ "_" ++ v ++ "-" ++
          (md5Hex (String.intercalate "," (pySortStrings l))).take 8) ∧
    (∀ (p v : String) (l1 l2 : List String), l1.Perm l2 →
      getIndexName p v (some l1) = getIndexName p v (some l2)) ∧
    (∀ p v : String, getIndexName p v none = p ++ "_" ++ v ∧
      getIndexName p v (some []) = p ++ "_" ++ v) ∧
    md5Hex "X" = "02129bb861061d1a052c592e2dc6b383" ∧
    getIndexName "semantic" "3.40.0" (some ["X"]) =
      "semantic_3.40.0-" ++ (md5Hex "X").take 8 := by
  refine ⟨?_, ?_, ?_, by decide, by decide⟩
  · intro p v l hl
    simp only [getIndexName, if_pos (List.length_pos.mpr hl)]
  · intro p v l1 l2 hperm
    have hlen : l1.length = l2.length := hperm.length_eq
    simp only [getIndexName]
    by_cases h0 : 0 < l1.length
    · rw [if_pos h0, if_pos (hlen ▸ h0)]
      have hsort : pySortStrings l1 = pySortStrings l2 := by
        apply List.eq_of_perm_of_sorted
          ((List.perm_insertionSort _ l1).trans
            (hperm.trans (List.perm_insertionSort _ l2).symm))
          (List.sorted_insertionSort _ l1)
          (List.sorted_insertionSort _ l2)
      rw [hsort]
    · rw [if_neg h0, if_neg (fun hc => h0 (hlen ▸ hc))]
  · intro p v
    exact ⟨rfl, rfl⟩

theorem claim3_index_identity_witness :
    getIndexName "semantic" "1.0" (some ["b", "a"]) =
      getIndexName "semantic" "1.0" (some ["a", "b"]) :=
  claim3_index_identity.2.1 "semantic" "1.0" ["b", "a"] ["a", "b"] (by decide)

/-- C4 counterexample: on the fragment map
`{"a/b": "d1", "a/c": "d2"}` — two paths tied at the maximum depth — the
composer selects `"a/c"`, the path collected LAST among the tied ones,
not `"a/b"`, the one collected first as the claim states. -/
theorem claim4_counterexample :
    deepestPath [("a/b", "d1"), ("a/c", "d2")] = some "a/c" ∧
    ("a/c" : String) ≠ "a/b" ∧
    buildHierarchicalDocumentation [("a/b", "d1"), ("a/c", "d2")] =
      "**a/c**\nd2\n\n## Hierarchical Context\n\n#### a/b\nd1" := by
  decide

/-- C4 (amended): the fragment selected as the leaf is the one of maximal
`/`-count, and ties at that maximum depth are broken by the LAST path
collected (the stable ascending sort puts the last-inserted tied key at
position `[-1]`), not the first. -/
theorem claim4_leaf_selection (parts : List (String × String)) :
    deepestPath parts = lastMaxBy slashCount (parts.map Prod.fst) ∧
    ∀ dp, deepestPath parts = some dp →
      dp ∈ parts.map Prod.fst ∧
        ∀ p ∈ parts.map Prod.fst, slashCount p ≤ slashCount dp := by
  constructor
  · exact getLast?_insertionSort_eq_lastMaxBy (parts.map Prod.fst)
  · intro dp hdp
    have hdp2 : lastMaxBy slashCount (parts.map Prod.fst) = some dp := by
      rw [← getLast?_insertionSort_eq_lastMaxBy]
      exact hdp
    exact ⟨lastMaxBy_mem hdp2, lastMaxBy_max hdp2⟩

theorem claim4_leaf_selection_witness :
    ("a/c" ∈ ([("a/b", "d1"), ("a/c", "d2")].map Prod.fst) ∧
      ∀ p ∈ ([("a/b", "d1"), ("a/c", "d2")].map Prod.fst),
        slashCount p ≤ slashCount "a/c") :=
  (claim4_leaf_selection [("a/b", "d1"), ("a/c", "d2")]).2 "a/c" (by decide)

/-- C5 counterexample: for the fragment map collected in the order
`["a/b", "a", "a/b/c"]`, the non-leaf fragments in map insertion order
are `["a/b", "a"]`, but the composer iterates them as `["a", "a/b"]`
(stable re-sort by depth), so the ancestor blocks do NOT appear in
insertion order. -/
theorem claim5_counterexample :
    contextPaths [("a/b", "B"), ("a", "A"), ("a/b/c", "C")] = ["a", "a/b"] ∧
    (["a", "a/b"] : List String) ≠ ["a/b", "a"] ∧
    buildHierarchicalDocumentation [("a/b", "B"), ("a", "A"), ("a/b/c", "C")] =
      "**a/b/c**\nC\n\n## Hierarchical Context\n\n### a\nA\n\n#### a/b\nB" := by
  decide

/-- C5 (amended): the ancestor context blocks are iterated in the stable
ascending sort of the collected paths by depth (`/`-count) with the leaf
removed: the sequence is sorted by depth, and within each fixed depth the
paths appear as a prefix of their map-insertion-order subsequence (the
leaf, removed from the end, can only truncate the maximal depth). Map
insertion order is NOT the global iteration order. -/
theorem claim5_context_order (parts : List (String × String)) :
    (contextPaths parts).Sorted depthLe ∧
    ∀ d : Nat, ∃ n : Nat,
      (contextPaths parts).filter (fun p => slashCount p == d) =
        ((parts.map Prod.fst).filter (fun p => slashCount p == d)).take n := by
  constructor
  · have hs : (List.insertionSort depthLe (parts.map Prod.fst)).Sorted depthLe :=
      List.sorted_insertionSort depthLe (parts.map Prod.fst)
    exact List.Pairwise.sublist (List.dropLast_sublist _) hs
  · intro d
    simp only [contextPaths]
    obtain ⟨t, ht⟩ :=
      List.dropLast_prefix (List.insertionSort depthLe (parts.map Prod.fst))
    have h1 : ((List.insertionSort depthLe (parts.map Prod.fst)).dropLast ++
        t).filter (fun p => slashCount p == d) =
        (List.insertionSort depthLe (parts.map Prod.fst)).dropLast.filter
          (fun p => slashCount p == d) ++
          t.filter (fun p => slashCount p == d) := List.filter_append _ _
    rw [ht, filter_insertionSort_depth] at h1
    refine ⟨((List.insertionSort depthLe (parts.map Prod.fst)).dropLast.filter
      (fun p => slashCount p == d)).length, ?_⟩
    rw [h1, List.take_left]

/-- C6: every context fragment is emitted under a markdown header of level
`min(6, depth + 2)` (depth = slash count + 1): the code's block equals the
specification's rendering, the leading-`#` run of every emitted block has
length `min(6, depth + 2)`, and that level never exceeds 6 (fragments past
level 6 keep a level-6 header with two spaces of indentation per excess
level and the path bolded inline). -/
theorem claim6_header_levels (parts : List (String × String))
    (pathKey : String) :
    contextBlock parts pathKey = specContextBlock parts pathKey ∧
    (contextBlock parts pathKey).all
      (fun b => leadingHashes b == min 6 (slashCount pathKey + 3)) = true ∧
    min 6 (slashCount pathKey + 3) ≤ 6 := by
  refine ⟨?_, ?_, Nat.min_le_left _ _⟩
  · simp only [contextBlock, specContextBlock]
    by_cases hdoc : (List.lookup pathKey parts).getD "" = ""
    · rw [if_pos hdoc, if_pos hdoc]
    · rw [if_neg hdoc, if_neg hdoc]
      by_cases hle : slashCount pathKey + 1 + 2 ≤ 6
      · rw [if_pos hle, if_pos hle, Nat.min_eq_right hle]
      · rw [if_neg hle, if_neg hle,
          Nat.min_eq_left (Nat.le_of_lt (Nat.lt_of_not_le hle))]
        have hlit : hashes 6 ++ " " = "###### " := by decide
        rw [← hlit]
  · simp only [contextBlock]
    by_cases hdoc : (List.lookup pathKey parts).getD "" = ""
    · rw [if_pos hdoc]
      rfl
    · rw [if_neg hdoc]
      by_cases hle : slashCount pathKey + 1 + 2 ≤ 6
      · rw [if_pos hle]
        show (leadingHashes (hashes (slashCount pathKey + 1 + 2) ++ " " ++
            pathKey ++ "\n" ++ (List.lookup pathKey parts).getD "") ==
          min 6 (slashCount pathKey + 3)) = true
        have hre : hashes (slashCount pathKey + 1 + 2) ++ " " ++ pathKey ++
            "\n" ++ (List.lookup pathKey parts).getD "" =
            hashes (slashCount pathKey + 1 + 2) ++ (" " ++ (pathKey ++
              ("\n" ++ (List.lookup pathKey parts).getD ""))) := by
          simp [str_append_assoc]
        rw [hre, leadingHashes_hashes_block, Nat.min_eq_right hle]
        exact beq_self_eq_true _
      · rw [if_neg hle]
        show (leadingHashes ("###### " ++
            spaces (2 * (slashCount pathKey + 1 + 2 - 6)) ++ "**" ++
            pathKey ++ "**\n" ++
            spaces (2 * (slashCount pathKey + 1 + 2 - 6)) ++
            (List.lookup pathKey parts).getD "") ==
          min 6 (slashCount pathKey + 3)) = true
        have hlit : ("###### " : String) = hashes 6 ++ " " := by decide
        have hre : "###### " ++
            spaces (2 * (slashCount pathKey + 1 + 2 - 6)) ++ "**" ++
            pathKey ++ "**\n" ++
            spaces (2 * (slashCount pathKey + 1 + 2 - 6)) ++
            (List.lookup pathKey parts).getD "" =
            hashes 6 ++ (" " ++
              (spaces (2 * (slashCount pathKey + 1 + 2 - 6)) ++
                ("**" ++ (pathKey ++ ("**\n" ++
                  (spaces (2 * (slashCount pathKey + 1 + 2 - 6)) ++
                    (List.lookup pathKey parts).getD "")))))) := by
          rw [hlit]
          simp [str_append_assoc]
        rw [hre, leadingHashes_hashes_block,
          Nat.min_eq_left (Nat.le_of_lt (Nat.lt_of_not_le hle))]
        exact beq_self_eq_true _

/-- C7 counterexample: on the fragment map `{"a": "", "a/b": "x"}` the
only non-leaf fragment (`"a"`) has EMPTY documentation, yet the output
still contains the "## Hierarchical Context" section header — the header
is emitted whenever a non-leaf fragment exists at all, not only when one
has non-empty text. -/
theorem claim7_counterexample :
    buildHierarchicalDocumentation [("a", ""), ("a/b", "x")] =
      "**a/b**\nx\n\n## Hierarchical Context" ∧
    "## Hierarchical Context" ∈ docSections [("a", ""), ("a/b", "x")] ∧
    (∀ pd ∈ [("a", ""), ("a/b", "x")], pd.1 ≠ "a/b" → pd.2 = "") := by
  decide

/-- C7 (amended): the composer returns the empty string for an empty
fragment map; for a non-empty map it places the selected deepest-path
fragment's text first (when that text is non-empty), and the output
contains the "## Hierarchical Context" section iff the map holds at least
two fragments — regardless of whether any non-leaf fragment has non-empty
text. -/
theorem docSections_eq (parts : List (String × String)) (dp : String)
    (h : deepestPath parts = some dp) :
    docSections parts =
      (if (List.lookup dp parts).getD "" = "" then []
       else ["**" ++ dp ++ "**\n" ++ (List.lookup dp parts).getD ""]) ++
      (if contextPaths parts = [] then []
       else "## Hierarchical Context" ::
         (contextPaths parts).filterMap (contextBlock parts)) := by
  simp only [docSections, h]

theorem claim7_compose (parts : List (String × String)) :
    (parts = [] → buildHierarchicalDocumentation parts = "") ∧
    (∀ dp, deepestPath parts = some dp →
      ((List.lookup dp parts).getD "" ≠ "" →
        (docSections parts).head? =
          some ("**" ++ dp ++ "**\n" ++ (List.lookup dp parts).getD "")) ∧
      ("## Hierarchical Context" ∈ docSections parts ↔ 2 ≤ parts.length)) := by
  constructor
  · intro h
    subst h
    rfl
  · intro dp hdp
    have hlen2 : (contextPaths parts).length = parts.length - 1 := by
      simp only [contextPaths, List.length_dropLast,
        List.length_insertionSort, List.length_map]
    constructor
    · intro hld
      rw [docSections_eq parts dp hdp, if_neg hld]
      by_cases hcp : contextPaths parts = []
      · rw [if_pos hcp]
        rfl
      · rw [if_neg hcp]
        rfl
    · constructor
      · intro hmem
        by_contra hlt
        push_neg at hlt
        have hcp : contextPaths parts = [] := List.length_eq_zero.mp (by omega)
        rw [docSections_eq parts dp hdp, if_pos hcp, List.append_nil] at hmem
        by_cases hld : (List.lookup dp parts).getD "" = ""
        · rw [if_pos hld] at hmem
          exact List.not_mem_nil _ hmem
        · rw [if_neg hld] at hmem
          exact star_block_ne_header dp _ (List.mem_singleton.mp hmem).symm
      · intro h2
        have hcp : contextPaths parts ≠ [] := by
          intro hc
          rw [hc] at hlen2
          simp only [List.length_nil] at hlen2
          omega
        rw [docSections_eq parts dp hdp, if_neg hcp]
        exact List.mem_append_right _ (List.mem_cons_self _ _)

theorem claim7_compose_witness :
    (docSections [("a", "ra"), ("a/b", "rb")]).head? =
      some ("**" ++ "a/b" ++ "**\n" ++
        (List.lookup "a/b" [("a", "ra"), ("a/b", "rb")]).getD "") ∧
    ("## Hierarchical Context" ∈ docSections [("a", "ra"), ("a/b", "rb")] ↔
      2 ≤ ([("a", "ra"), ("a/b", "rb")] : List (String × String)).length) :=
  have h := (claim7_compose [("a", "ra"), ("a/b", "rb")]).2 "a/b" (by decide)
  ⟨h.1 (by decide), h.2⟩

/-- C1 counterexample: on `exSchemaW` — whose `V` element carries the
inheritance marker while neither `V` nor any ancestor up to the IDS root
`W` carries a concrete unit — the extractor emits the record `W/V` with
`units` equal to the literal marker string `"as_parent"`, not the
sentinel `"none"` the claim requires. -/
theorem claim1_counterexample :
    (getDocument exSchemaW ["W"]).map DocEntry.units = ["none", "as_parent"] ∧
    "as_parent" ∈ (getDocument exSchemaW ["W"]).map DocEntry.units := by
  decide

/-- C1 (amended): the `units` of a root record equals the marker iff the
IDS element itself declares `units="as_parent"`; the `units` of a
descendant record equals the marker iff the element's own units value is
the marker AND every parent units value consulted on the walk (up to and
including the IDS root) is absent, empty, or the marker itself. In every
other case the record's units is a concrete string or `"none"`. -/
theorem claim1_units (ids : XTree) (idsName : String) :
    ((idsRootEntry ids idsName).units = "as_parent" ↔
      ids.unitsAttr = some "as_parent") ∧
    (∀ (chain : List XTree) (e : DocEntry),
      buildElementEntry chain ids idsName = some e →
      (e.units = "as_parent" ↔
        (elemUnitsOf chain = "as_parent" ∧
          ∀ pu ∈ parentUnitsList chain ids, inheritOpaque pu))) := by
  constructor
  · cases hu : ids.unitsAttr with
    | none =>
      simp only [idsRootEntry, hu, Option.getD_none]
      decide
    | some u =>
      simp only [idsRootEntry, hu, Option.getD_some, Option.some.injEq]
  · intro chain e he
    simp only [buildElementEntry] at he
    split at he
    · exact Option.noConfusion he
    · have he2 := Option.some.inj he
      subst he2
      have hwu : (walkLoop idsName ids chain ⟨[], [], elemUnitsOf chain⟩).units =
          resolveUnits (elemUnitsOf chain) (parentUnitsList chain ids) :=
        walkLoop_units idsName ids chain ⟨[], [], elemUnitsOf chain⟩
      show (if (walkLoop idsName ids chain ⟨[], [], elemUnitsOf chain⟩).units
          = "" then "none"
        else (walkLoop idsName ids chain ⟨[], [], elemUnitsOf chain⟩).units)
          = "as_parent" ↔ _
      rw [hwu, ← resolveUnits_marker_iff]
      by_cases hR : resolveUnits (elemUnitsOf chain)
          (parentUnitsList chain ids) = ""
      · rw [if_pos hR, hR]
        constructor
        · intro h
          exact absurd h (by decide)
        · intro h
          exact absurd h (by decide)
      · rw [if_neg hR]

theorem claim1_units_witness :
    (({ path := "W/V", documentation := "", units := "as_parent",
        ids_name := "W" } : DocEntry).units = "as_parent" ↔
      (elemUnitsOf [exV] = "as_parent" ∧
        ∀ pu ∈ parentUnitsList [exV] exW, inheritOpaque pu)) :=
  (claim1_units exW "W").2 [exV]
    { path := "W/V", documentation := "", units := "as_parent",
      ids_name := "W" } (by decide)

/-- C8 counterexample: in the end-to-end scenario the record for
`X/Y/Z` does NOT omit the leaf line — its documentation begins with the
leaf line `**X/Y/Z**` carrying Y's text "child doc" (the walk keys each
ancestor's documentation under the full path down to the element, so Y's
text lands under the key `X/Y/Z` and becomes the leaf text), contrary to
the claim that the leaf line is omitted because Z has no own text. -/
theorem claim8_counterexample :
    (getDocument exSchemaX ["X"]).map DocEntry.documentation =
      ["root doc",
       "**X/Y**\nchild doc\n\n## Hierarchical Context\n\n### X\nroot doc",
       "**X/Y/Z**\nchild doc\n\n## Hierarchical Context\n\n### X\nroot doc"] ∧
    ("**X/Y/Z**\nchild doc\n\n## Hierarchical Context\n\n### X\nroot doc").take 9
      = "**X/Y/Z**" := by
  decide

/-- C8 (amended): the scenario schema yields exactly the three records
`{X, "root doc", none}`, `{X/Y, leaf-first composition of "child doc"
then context "root doc", m}` and `{X/Y/Z, composition whose leaf line is
`**X/Y/Z**` with Y's text "child doc" (keyed at the full path by the
walk) followed by context "root doc", units m inherited through the
marker}`. -/
theorem claim8_records :
    getDocument exSchemaX ["X"] =
      [{ path := "X", documentation := "root doc", units := "none",
         ids_name := "X" },
       { path := "X/Y",
         documentation :=
           "**X/Y**\nchild doc\n\n## Hierarchical Context\n\n### X\nroot doc",
         units := "m", ids_name := "X" },
       { path := "X/Y/Z",
         documentation :=
           "**X/Y/Z**\nchild doc\n\n## Hierarchical Context\n\n### X\nroot doc",
         units := "m", ids_name := "X" }] := by
  decide

/-- C10: every record yielded by the extractor has a `path` that either
equals its `ids_name` exactly (top-level structure records) or begins
with `ids_name` followed by `/` (descendant records). -/
theorem claim10_path_shape (root : XTree) (sel : List String) :
    ∀ e ∈ getDocument root sel,
      e.path = e.ids_name ∨ ∃ rest, e.path = e.ids_name ++ "/" ++ rest := by
  intro e he
  simp only [getDocument, List.mem_join] at he
  obtain ⟨l, hl, hel⟩ := he
  obtain ⟨ids, _, rfl⟩ := List.mem_map.mp hl
  exact idsDocuments_shape ids e hel

theorem claim10_path_shape_witness :
    exRootRecord.path = exRootRecord.ids_name ∨
    ∃ rest, exRootRecord.path = exRootRecord.ids_name ++ "/" ++ rest :=
  claim10_path_shape exSchemaX ["X"] exRootRecord (by decide)

/-- C2: on a stream of well-formed document records and a positive batch
size `B`, the batcher deduplicates by `path` (first occurrence wins) and
yields exactly `⌈N/B⌉` batches for the deduplicated length `N`: their
concatenation reproduces the deduplicated stream in order, every batch
except the last has size exactly `B`, and the last has size `N mod B`
(or `B` when `B` divides `N`). -/
theorem claim2_batcher (stream : List DocRec) (B : Nat) (hB : 1 ≤ B)
    (hwf : ∀ r ∈ stream, wfRec r) :
    (getDocumentBatch stream B).join = dedupByPath stream [] ∧
    (getDocumentBatch stream B).length =
      ((dedupByPath stream []).length + B - 1) / B ∧
    (∀ c ∈ (getDocumentBatch stream B).dropLast, c.length = B) ∧
    (getDocumentBatch stream B ≠ [] →
      (getDocumentBatch stream B).getLast?.map List.length =
        some (if (dedupByPath stream []).length % B = 0 then B
              else (dedupByPath stream []).length % B)) := by
  have hbridge : getDocumentBatch stream B =
      chunksAcc B [] (dedupByPath stream []) :=
    batchGo_eq_chunksAcc B stream [] [] hwf
  have h0 : ([] : List DocRec).length < B := by
    simp only [List.length_nil]
    omega
  refine ⟨?_, ?_, ?_, ?_⟩
  · rw [hbridge, join_chunksAcc]
    rfl
  · rw [hbridge, length_chunksAcc B _ [] h0]
    simp
  · rw [hbridge]
    exact dropLast_chunksAcc B _ [] h0
  · intro hne
    have hd : dedupByPath stream [] ≠ [] := by
      intro hc
      apply hne
      rw [hbridge, hc]
      rfl
    rw [hbridge]
    simpa using getLast?_chunksAcc B (dedupByPath stream []) [] h0 (Or.inr hd)

theorem claim2_batcher_witness :
    (getDocumentBatch
      [⟨some "a", some "d", some "u", some "i"⟩,
       ⟨some "b", some "d", some "u", some "i"⟩,
       ⟨some "a", some "d2", some "u", some "i"⟩] 2).join =
      dedupByPath
        [⟨some "a", some "d", some "u", some "i"⟩,
         ⟨some "b", some "d", some "u", some "i"⟩,
         ⟨some "a", some "d2", some "u", some "i"⟩] [] :=
  (claim2_batcher
    [⟨some "a", some "d", some "u", some "i"⟩,
     ⟨some "b", some "d", some "u", some "i"⟩,
     ⟨some "a", some "d2", some "u", some "i"⟩] 2
    (by decide) (by decide)).1

/-- C9: a record lacking any of the three required keys (`path`,
`documentation`, `ids_name`) is dropped — removing it from the stream
does not change the batcher's output — and every record appearing in any
yielded batch possesses all three keys. -/
theorem claim9_missing_keys (B : Nat) (pre post : List DocRec) (r : DocRec)
    (h : missingKey r) :
    getDocumentBatch (pre ++ r :: post) B = getDocumentBatch (pre ++ post) B ∧
    ∀ b ∈ getDocumentBatch (pre ++ r :: post) B, ∀ x ∈ b, hasKeys x := by
  constructor
  · exact batchGo_drop_missingKey B r h pre post [] []
  · exact batchGo_hasKeys B (pre ++ r :: post) [] []
      (by intro x hx; exact absurd hx (List.not_mem_nil x))

theorem claim9_missing_keys_witness :
    getDocumentBatch
      ([] ++ (⟨some "b", none, some "u", some "i"⟩ : DocRec) ::
        [⟨some "a", some "d", some "u", some "i"⟩]) 2 =
      getDocumentBatch
        ([] ++ [(⟨some "a", some "d", some "u", some "i"⟩ : DocRec)]) 2 :=
  (claim9_missing_keys 2 [] [⟨some "a", some "d", some "u", some "i"⟩]
    ⟨some "b", none, some "u", some "i"⟩ (by decide)).1

/-- Validation of the MD5 embedding against the RFC 1321 test vectors
(and one comma-joined input), so that the index-identity theorems really
speak about MD5. -/
theorem md5Hex_rfc_vectors :
    md5Hex "" = "d41d8cd98f00b204e9800998ecf8427e" ∧
    md5Hex "abc" = "900150983cd24fb0d6963f7d28e17f72" ∧
    md5Hex "a,b" = "b345e1dc09f20fdefdea469f09167892" := by
  refine ⟨by decide, by decide, by decide⟩

end DDIndex
